import Mathlib

/-!
Verification development for the subspace DSN block-import pipeline
(`crates/subspace-service/src/dsn/import_blocks.rs`) and the peer
piece-availability index (`crates/subspace-farmer/src/utils/archival_storage_info.rs`).

The Rust sources are shallowly embedded: machine integers become `Nat`,
byte buffers become `List Nat`, the asynchronous environment (network
fetches, the import queue's best-block number, the reconstructor output)
becomes an explicit oracle record, and the potentially endless
backpressure wait loop takes an explicit fuel argument, reporting
exhaustion as a `spin` outcome.
-/

namespace Subspace

/-- Encoded block bytes (`Vec<u8>` in the source). -/
abbrev Bytes := List Nat

/-- How many blocks to queue before pausing and waiting for blocks to be
imported (`QUEUED_BLOCKS_LIMIT` in `import_blocks.rs`, value 2048). -/
def QUEUED_BLOCKS_LIMIT : Nat := 2048

/-- One segment header, as read by the driver: the number of the last
archived block the segment covers, and whether that block's archived
progress is only a part of the block (in the source,
`segment_header.last_archived_block().archived_progress.partial().is_some()`). -/
structure SegmentHeader where
  lastArchivedBlockNumber : Nat
  lastBlockIncomplete : Bool
deriving DecidableEq

/-- Tag passed to `import_queue_service.import_blocks` — either
`BlockOrigin::NetworkInitialSync` or `BlockOrigin::NetworkBroadcast`. -/
inductive Origin where
  | initialSync
  | broadcast
deriving DecidableEq

/-- The fatal error kinds the driver body can raise (all are string-wrapped
at the Rust boundary): failed segment reconstruction
(`reconstructor.add_segment(..)` error), the genesis byte mismatch
(`"Wrong genesis block, block import failed"`), and a block decode failure
(`Block::decode(..)` error). -/
inductive RunError where
  | reconstruction
  | chainMismatch
  | decodeFail
deriving DecidableEq

/-- Outcome of a loop in the embedding: normal completion, a fatal error, or
fuel exhaustion (`spin`, standing for an execution that is still waiting).
Every outcome carries the state reached, so submissions made before an
error or while waiting stay observable. -/
inductive LoopRes (σ : Type) where
  | done (s : σ)
  | fail (e : RunError) (s : σ)
  | spin (s : σ)
deriving DecidableEq

/-- The state carried by any `LoopRes` outcome. -/
def LoopRes.st {σ : Type} : LoopRes σ → σ
  | .done s => s
  | .fail _ s => s
  | .spin s => s

/-- Whether the outcome is normal completion. -/
def LoopRes.isDone {σ : Type} : LoopRes σ → Bool
  | .done _ => true
  | _ => false

/-- Whether the outcome is fuel exhaustion (the loop was still waiting). -/
def LoopRes.isSpin {σ : Type} : LoopRes σ → Bool
  | .spin _ => true
  | _ => false

/-- Oracle environment of one driver run.  `best k` is the value
`client.info().best_number` returns at the k-th read; `contents i` is what
`reconstructor.add_segment(..)` yields for segment `i` (`none` models a
reconstruction error); `localBlockBytes n` is the SCALE encoding of the
locally stored block at height `n` (`client.block(client.hash(n))`);
`decodeOk b` tells whether `Block::decode` succeeds on bytes `b`. -/
structure Env where
  headers : List SegmentHeader
  best : Nat → Nat
  contents : Nat → Option (List (Nat × Bytes))
  localBlockBytes : Nat → Bytes
  decodeOk : Bytes → Bool

/-- Per-segment record of what the driver did with a segment index:
skipped it through the already-imported check (which also resets the
reconstructor), or went on to fetch and reconstruct it. -/
inductive SegEvent where
  | skipped
  | fetched
deriving DecidableEq

/-- State of the per-segment block loop (`import_blocks.rs` lines 215-283):
the local `best_block_number` variable, the read counter into the best
oracle, the block numbers accumulated in `blocks_to_import`, the
submissions made so far (origin tag and block numbers), and the
`downloaded_blocks` counter. -/
structure BlkSt where
  bestVar : Nat
  readIdx : Nat
  batch : List Nat
  subs : List (Origin × List Nat)
  downloaded : Nat
deriving DecidableEq

/-- Driver-level state across segments. -/
structure St where
  readIdx : Nat
  subs : List (Origin × List Nat)
  events : List (Nat × SegEvent)
  downloaded : Nat
deriving DecidableEq

/-- The initial driver state. -/
def initSt : St := { readIdx := 0, subs := [], events := [], downloaded := 0 }

/-- The backpressure wait loop (`import_blocks.rs` lines 240-256):
while the gap between the next block number and the best imported block
number is at least `QUEUED_BLOCKS_LIMIT`, flush the accumulated batch (if
non-empty) to the import queue, sleep, and re-read the best block number.
Fuel exhaustion is reported as `spin`. -/
def waitLoop (env : Env) (bn : Nat) : Nat → BlkSt → LoopRes BlkSt
  | 0, s => .spin s
  | fuel + 1, s =>
    if QUEUED_BLOCKS_LIMIT ≤ bn - s.bestVar then
      let s1 := if s.batch.isEmpty then s
        else { s with subs := s.subs ++ [(Origin.initialSync, s.batch)], batch := [] }
      waitLoop env bn fuel { s1 with bestVar := env.best s1.readIdx, readIdx := s1.readIdx + 1 }
    else .done s

/-- The per-segment block loop (`import_blocks.rs` lines 218-283): for each
reconstructed `(block_number, block_bytes)` pair, skip it when at or below
the current best (checking bytes against the locally stored block only for
block number 0, where a mismatch is the fatal "Wrong genesis block" error),
otherwise run the backpressure wait loop, decode the block and append it to
the batch. -/
def procBlocks (env : Env) (fuel : Nat) : List (Nat × Bytes) → BlkSt → LoopRes BlkSt
  | [], s => .done s
  | (bn, bytes) :: rest, s =>
    if bn ≤ s.bestVar then
      if bn = 0 then
        if env.localBlockBytes bn = bytes then procBlocks env fuel rest s
        else .fail .chainMismatch s
      else procBlocks env fuel rest s
    else
      match waitLoop env bn fuel s with
      | .done s1 =>
        if env.decodeOk bytes then
          procBlocks env fuel rest
            { s1 with batch := s1.batch ++ [bn], downloaded := s1.downloaded + 1 }
        else .fail .decodeFail s1
      | .fail e s1 => .fail e s1
      | .spin s1 => .spin s1

/-- Merge the block-loop state back into the driver state (the events list
lives only at driver level). -/
def mergeSt (st : St) (s : BlkSt) : St :=
  { readIdx := s.readIdx, subs := s.subs, events := st.events, downloaded := s.downloaded }

/-- Fetch-and-reconstruct path for one segment (`import_blocks.rs` lines
128-300 minus the skip check): record the fetch, reconstruct
(`reconstructor.add_segment`), run the block loop starting from a fresh
read of the best block number, and finally either stop the whole run
(empty batch, line 285), or submit the batch — split on the very last
segment into an initial-sync batch and a final broadcast block.  `.inl`
means the outer segment loop terminates with the given result, `.inr`
means it continues with the updated state. -/
def fetchSegment (env : Env) (fuel i : Nat) (isLast : Bool) (st : St) (readIdx : Nat) :
    Sum (LoopRes St) St :=
  let st1 : St := { st with readIdx := readIdx, events := st.events ++ [(i, SegEvent.fetched)] }
  match env.contents i with
  | none => .inl (.fail .reconstruction st1)
  | some blocks =>
    let s0 : BlkSt :=
      { bestVar := env.best st1.readIdx, readIdx := st1.readIdx + 1,
        batch := [], subs := st1.subs, downloaded := st1.downloaded }
    match procBlocks env fuel blocks s0 with
    | .fail e s => .inl (.fail e (mergeSt st1 s))
    | .spin s => .inl (.spin (mergeSt st1 s))
    | .done s =>
      if s.batch.isEmpty then .inl (.done (mergeSt st1 s))
      else if isLast then
        match s.batch.getLast? with
        | some lastB =>
          .inr (mergeSt st1
            { s with
              subs := s.subs ++ [(Origin.initialSync, s.batch.dropLast),
                (Origin.broadcast, [lastB])],
              batch := [] })
        | none => .inr (mergeSt st1 s)
      else
        .inr (mergeSt st1 { s with subs := s.subs ++ [(Origin.initialSync, s.batch)], batch := [] })

/-- The outer segment loop (`import_blocks.rs` lines 97-301): for each
remaining segment index, look up its header and apply the skip check
(`last_archived_block <= best`, or last segment covering only a part of
block `best + 1`), with the short-circuit reads of
`client.info().best_number` modelled as consecutive oracle reads; a
skipped segment resets the reconstructor and records a `skipped` event;
otherwise the segment is fetched via `fetchSegment`. -/
def procSegments (env : Env) (fuel : Nat) : List Nat → St → LoopRes St
  | [], st => .done st
  | i :: rest, st =>
    match env.headers[i]? with
    | none =>
      match fetchSegment env fuel i rest.isEmpty st st.readIdx with
      | .inl r => r
      | .inr st' => procSegments env fuel rest st'
    | some h =>
      if h.lastArchivedBlockNumber ≤ env.best st.readIdx then
        procSegments env fuel rest
          { st with readIdx := st.readIdx + 1, events := st.events ++ [(i, SegEvent.skipped)] }
      else
        if h.lastArchivedBlockNumber = env.best (st.readIdx + 1) + 1 ∧
            h.lastBlockIncomplete = true ∧ rest = [] then
          procSegments env fuel rest
            { st with readIdx := st.readIdx + 2, events := st.events ++ [(i, SegEvent.skipped)] }
        else
          match fetchSegment env fuel i rest.isEmpty st (st.readIdx + 2) with
          | .inl r => r
          | .inr st' => procSegments env fuel rest st'

/-- The whole driver run `import_blocks_from_dsn` after segment headers were
downloaded and persisted: an empty header list returns immediately,
otherwise the segment loop runs over indices `1 .. len - 1` (segment 0 is
always skipped, everyone has it locally). -/
def runDriver (env : Env) (fuel : Nat) : LoopRes St :=
  if env.headers.isEmpty then .done initSt
  else procSegments env fuel ((List.range env.headers.length).drop 1) initSt

/-- Block numbers of every submission made so far, flattened in submission
order. -/
def flatSubs (subs : List (Origin × List Nat)) : List Nat :=
  (subs.map Prod.snd).flatten

/-- Concatenated block numbers of the reconstructed contents of the given
segment indices, in segment order. -/
def futureOf (env : Env) (idxs : List Nat) : List Nat :=
  (idxs.map (fun i => ((env.contents i).getD []).map Prod.fst)).flatten

/-- Concatenated block numbers of the reconstructed contents of all segments
the driver iterates over. -/
def globalBlocks (env : Env) : List Nat :=
  futureOf env ((List.range env.headers.length).drop 1)

/-- What happened to the concurrency permit a piece-fetch future held:
never acquired (semaphore closed), released back to the semaphore (the
permit guard was dropped), or permanently consumed (`permit.forget()`). -/
inductive PermitFate where
  | notAcquired
  | released
  | forgotten
deriving DecidableEq

/-- Body of one piece-fetch future (`import_blocks.rs` lines 139-183) after
the permit-acquisition point: `semClosed` models the acquire-error branch,
`fetch` models `piece_provider.get_piece(piece_index, RetryPolicy::Limited(0))`.
Returns the future's result together with the fate of its permit: an error
or an absent piece drops (releases) the permit, a received piece calls
`permit.forget()` before yielding `(piece_index, piece)`. -/
def pieceFetchTask (semClosed : Bool) (fetch : Nat → Except String (Option Bytes))
    (pieceIndex : Nat) : Option (Nat × Bytes) × PermitFate :=
  if semClosed then (none, .notAcquired)
  else
    match fetch pieceIndex with
    | .error _ => (none, .released)
    | .ok none => (none, .released)
    | .ok (some piece) => (some (pieceIndex, piece), .forgotten)

/-- Number of `some` entries in a piece array. -/
def countSome (l : List (Option Bytes)) : Nat :=
  (l.filter Option.isSome).length

/-- The result-collection loop over the unordered stream of fetch futures
(`import_blocks.rs` lines 190-206): `none` results are skipped, a usable
result is written at its in-segment position and counted, and the loop
breaks as soon as `limit` (`RecordedHistorySegment::NUM_RAW_RECORDS`)
usable pieces were received; the rest of the stream is never consumed. -/
def collectLoop (limit : Nat) : List (Option (Nat × Bytes)) → List (Option Bytes) → Nat →
    List (Option Bytes) × Nat
  | [], segmentPieces, received => (segmentPieces, received)
  | none :: rest, segmentPieces, received => collectLoop limit rest segmentPieces received
  | some (pos, piece) :: rest, segmentPieces, received =>
    let sp := segmentPieces.set pos (some piece)
    if limit ≤ received + 1 then (sp, received + 1)
    else collectLoop limit rest sp (received + 1)

/-- Peer identity (`PeerId` in the source). -/
abbrev PeerId := Nat

/-- Wire snapshot of a peer's cuckoo filter (`CuckooFilterDTO`): raw values
and a length, consumed verbatim. -/
structure CuckooFilterDTO where
  values : List Nat
  length : Nat
deriving DecidableEq

/-- The locally rebuilt filter.  Its probabilistic membership behaviour is
irrelevant to the tracked-peer bookkeeping verified here, so it is carried
as the imported data (`CuckooFilter::from(ExportedCuckooFilter { values,
length })`). -/
abbrev PeerCuckooFilter := CuckooFilterDTO

/-- `CONNECTED_PEERS_NUMBER_LIMIT` in `archival_storage_info.rs`. -/
def CONNECTED_PEERS_NUMBER_LIMIT : Nat := 50

/-- The rebuilt filter stored for a peer (`ExportedCuckooFilter { values:
dto.values.clone(), length: dto.length }` fed to `CuckooFilter::from`). -/
def dtoToFilter (dto : CuckooFilterDTO) : PeerCuckooFilter :=
  { values := dto.values, length := dto.length }

/-- `HashMap::insert`: replace the value when the key is present, otherwise
add the entry.  The map is embedded as an association list whose key list
is kept duplicate-free. -/
def insertAssoc (m : List (PeerId × PeerCuckooFilter)) (p : PeerId) (f : PeerCuckooFilter) :
    List (PeerId × PeerCuckooFilter) :=
  if p ∈ m.map Prod.fst then
    m.map (fun e => if e.1 = p then (p, f) else e)
  else m ++ [(p, f)]

/-- `HashMap::remove`: drop the entry with the given key. -/
def removeAssoc (m : List (PeerId × PeerCuckooFilter)) (p : PeerId) :
    List (PeerId × PeerCuckooFilter) :=
  m.filter (fun e => !(e.1 = p : Bool))

/-- The eviction choice of `update_cuckoo_filter` (`archival_storage_info.rs`
lines 44-64) over the post-insert map `m1`: when the tracked-peer count
exceeds `CONNECTED_PEERS_NUMBER_LIMIT`, collect the keys (`enum` models
`peer_filters.keys()` — Rust's `HashMap` promises only some enumeration of
the key set, its order is randomized per map instance) and pick the index
`genRange (hashPeer peerId) len`, embedding
`StdRng::seed_from_u64(hash(peer_id)).gen_range(0..len)`: a deterministic
function of the seed, which is the just-updated peer's identity hash. -/
def evictedPeer (hashPeer : PeerId → Nat) (genRange : Nat → Nat → Nat)
    (enum : List (PeerId × PeerCuckooFilter) → List PeerId)
    (m1 : List (PeerId × PeerCuckooFilter)) (peerId : PeerId) : Option PeerId :=
  if CONNECTED_PEERS_NUMBER_LIMIT < m1.length then
    let connectedPeers := enum m1
    some (connectedPeers.getD (genRange (hashPeer peerId) connectedPeers.length) 0)
  else none

/-- `ArchivalStorageInfo::update_cuckoo_filter`: rebuild the filter from the
DTO, upsert it for the peer, then, when the limit is exceeded, remove the
randomly chosen peer. -/
def updateCuckooFilter (hashPeer : PeerId → Nat) (genRange : Nat → Nat → Nat)
    (enum : List (PeerId × PeerCuckooFilter) → List PeerId)
    (m : List (PeerId × PeerCuckooFilter)) (peerId : PeerId) (dto : CuckooFilterDTO) :
    List (PeerId × PeerCuckooFilter) :=
  match evictedPeer hashPeer genRange enum (insertAssoc m peerId (dtoToFilter dto)) peerId with
  | some removingPeerId => removeAssoc (insertAssoc m peerId (dtoToFilter dto)) removingPeerId
  | none => insertAssoc m peerId (dtoToFilter dto)

/-- `ArchivalStorageInfo::remove_peer_filter` (the boolean result is the
presence test, not modelled separately). -/
def removePeerFilter (m : List (PeerId × PeerCuckooFilter)) (p : PeerId) :
    List (PeerId × PeerCuckooFilter) :=
  removeAssoc m p

/-- One operation against the peer piece-availability index. -/
inductive ASOp where
  | update (peerId : PeerId) (dto : CuckooFilterDTO)
  | removePeer (peerId : PeerId)
deriving DecidableEq

/-- Apply one operation to the index state. -/
def applyOp (hashPeer : PeerId → Nat) (genRange : Nat → Nat → Nat)
    (enum : List (PeerId × PeerCuckooFilter) → List PeerId)
    (m : List (PeerId × PeerCuckooFilter)) : ASOp → List (PeerId × PeerCuckooFilter)
  | .update p dto => updateCuckooFilter hashPeer genRange enum m p dto
  | .removePeer p => removePeerFilter m p

/-- Run a sequence of operations against the index, starting from the empty
(default) state. -/
def runOps (hashPeer : PeerId → Nat) (genRange : Nat → Nat → Nat)
    (enum : List (PeerId × PeerCuckooFilter) → List PeerId)
    (ops : List ASOp) : List (PeerId × PeerCuckooFilter) :=
  ops.foldl (applyOp hashPeer genRange enum) []

/-- Pointwise form of the permit accounting: the decidable test for a
forgotten permit coincides with the usability test of the result. -/
theorem pieceFetchTask_fate_eq_isSome (semClosed : Bool)
    (fetch : Nat → Except String (Option Bytes)) (i : Nat) :
    decide ((pieceFetchTask semClosed fetch i).2 = PermitFate.forgotten) =
      (pieceFetchTask semClosed fetch i).1.isSome := by
  unfold pieceFetchTask
  cases semClosed with
  | true => simp
  | false =>
    cases hf : fetch i with
    | error e => simp
    | ok o => cases o <;> simp

/-- C3: a piece fetch consumes (forgets) its concurrency permit exactly when
it yields a usable piece; a fetch that errors out, or finds no piece,
leaves its permit to be released back — so over any collection of fetches
the number of permanently consumed permits equals the number of usable
pieces obtained, not the number of attempts. -/
theorem claim_c3_permit_forgotten_iff_usable (semClosed : Bool)
    (fetch : Nat → Except String (Option Bytes)) (idxs : List Nat) :
    (∀ i, (pieceFetchTask semClosed fetch i).2 = PermitFate.forgotten ↔
        (pieceFetchTask semClosed fetch i).1.isSome = true) ∧
    ((idxs.map (pieceFetchTask semClosed fetch)).filter
        (fun r => decide (r.2 = PermitFate.forgotten))).length =
      ((idxs.map (pieceFetchTask semClosed fetch)).filter (fun r => r.1.isSome)).length := by
  constructor
  · intro i
    have h := pieceFetchTask_fate_eq_isSome semClosed fetch i
    constructor
    · intro hf
      rw [← h, hf]
      simp
    · intro hs
      have h2 : decide ((pieceFetchTask semClosed fetch i).2 = PermitFate.forgotten) = true := by
        rw [h, hs]
      simpa using h2
  · induction idxs with
    | nil => rfl
    | cons i t ih =>
      simp only [List.map_cons, List.filter_cons]
      rw [pieceFetchTask_fate_eq_isSome semClosed fetch i]
      cases hs : (pieceFetchTask semClosed fetch i).1.isSome <;> simp [ih]

/-- Unfolding of `countSome` over a cons cell. -/
theorem countSome_cons (a : Option Bytes) (l : List (Option Bytes)) :
    countSome (a :: l) = (if a.isSome then 1 else 0) + countSome l := by
  cases a <;> simp [countSome, List.filter_cons] <;> omega

/-- Setting one position of a piece array adds at most one occupied slot. -/
theorem countSome_set_le (l : List (Option Bytes)) (p : Nat) (x : Bytes) :
    countSome (l.set p (some x)) ≤ countSome l + 1 := by
  induction l generalizing p with
  | nil => simp [countSome]
  | cons a t ih =>
    cases p with
    | zero =>
      simp only [List.set_cons_zero, countSome_cons]
      cases a <;> simp <;> omega
    | succ k =>
      simp only [List.set_cons_succ, countSome_cons]
      have := ih k
      omega

/-- An all-empty piece array has no occupied slots. -/
theorem countSome_replicate (n : Nat) : countSome (List.replicate n none) = 0 := by
  induction n with
  | zero => rfl
  | succ k ih => simpa [List.replicate_succ, countSome_cons] using ih

/-- Invariants of the collection loop: the received counter never decreases,
never passes the limit, and each increment of it accounts for at most one
newly occupied slot of the piece array. -/
theorem collectLoop_bounds (limit : Nat) (results : List (Option (Nat × Bytes)))
    (sp : List (Option Bytes)) (r : Nat) (hr : r < limit) :
    r ≤ (collectLoop limit results sp r).2 ∧
    (collectLoop limit results sp r).2 ≤ limit ∧
    countSome (collectLoop limit results sp r).1 ≤
      countSome sp + ((collectLoop limit results sp r).2 - r) := by
  induction results generalizing sp r with
  | nil =>
    refine ⟨Nat.le_refl r, Nat.le_of_lt hr, ?_⟩
    simp [collectLoop]
  | cons a rest ih =>
    match a with
    | none => simpa [collectLoop] using ih sp r hr
    | some (pos, piece) =>
      simp only [collectLoop]
      by_cases hbr : limit ≤ r + 1
      · simp only [if_pos hbr]
        refine ⟨Nat.le_succ r, by omega, ?_⟩
        have := countSome_set_le sp pos piece
        omega
      · simp only [if_neg hbr]
        have hlt : r + 1 < limit := by omega
        obtain ⟨h1, h2, h3⟩ := ih (sp.set pos (some piece)) (r + 1) hlt
        have := countSome_set_le sp pos piece
        refine ⟨by omega, h2, by omega⟩

/-- Once the collection loop has hit the limit, any further results in the
stream are never consumed: appending them changes nothing. -/
theorem collectLoop_stops (limit : Nat) (results extra : List (Option (Nat × Bytes)))
    (sp : List (Option Bytes)) (r : Nat) (hr : r < limit)
    (hhit : (collectLoop limit results sp r).2 = limit) :
    collectLoop limit (results ++ extra) sp r = collectLoop limit results sp r := by
  induction results generalizing sp r with
  | nil =>
    exfalso
    simp only [collectLoop] at hhit
    omega
  | cons a rest ih =>
    match a with
    | none =>
      simp only [List.cons_append, collectLoop] at hhit ⊢
      exact ih sp r hr hhit
    | some (pos, piece) =>
      simp only [List.cons_append, collectLoop] at hhit ⊢
      by_cases hbr : limit ≤ r + 1
      · simp [if_pos hbr]
      · simp only [if_neg hbr] at hhit ⊢
        exact ih (sp.set pos (some piece)) (r + 1) (by omega) hhit

/-- C4: starting from the all-empty piece array, the collection loop places
at most `limit` (`NUM_RAW_RECORDS`) pieces into the array, its received
counter never exceeds `limit`, and the moment `limit` usable pieces have
been collected it stops consuming the stream — results of outstanding
fetches are discarded, so appending them changes nothing. -/
theorem claim_c4_collect_early_exit (limit n : Nat) (results : List (Option (Nat × Bytes)))
    (hlim : 0 < limit) :
    countSome (collectLoop limit results (List.replicate n none) 0).1 ≤ limit ∧
    (collectLoop limit results (List.replicate n none) 0).2 ≤ limit ∧
    (∀ extra, (collectLoop limit results (List.replicate n none) 0).2 = limit →
      collectLoop limit (results ++ extra) (List.replicate n none) 0 =
        collectLoop limit results (List.replicate n none) 0) := by
  obtain ⟨h1, h2, h3⟩ := collectLoop_bounds limit results (List.replicate n none) 0 hlim
  refine ⟨?_, h2, ?_⟩
  · rw [countSome_replicate] at h3
    omega
  · intro extra hhit
    exact collectLoop_stops limit results extra (List.replicate n none) 0 hlim hhit

/-- Witness for C4 at `limit = 1` over a two-result stream: the loop stops
after the first usable piece. -/
theorem claim_c4_witness :
    0 < 1 ∧
    (countSome (collectLoop 1 [some (0, [7]), some (1, [8])] (List.replicate 2 none) 0).1 ≤ 1 ∧
      (collectLoop 1 [some (0, [7]), some (1, [8])] (List.replicate 2 none) 0).2 ≤ 1 ∧
      (∀ extra,
        (collectLoop 1 [some (0, [7]), some (1, [8])] (List.replicate 2 none) 0).2 = 1 →
        collectLoop 1 ([some (0, [7]), some (1, [8])] ++ extra) (List.replicate 2 none) 0 =
          collectLoop 1 [some (0, [7]), some (1, [8])] (List.replicate 2 none) 0)) :=
  ⟨Nat.one_pos, claim_c4_collect_early_exit 1 2 [some (0, [7]), some (1, [8])] Nat.one_pos⟩

/-- Upserting a peer that is already tracked keeps the key list unchanged. -/
theorem insertAssoc_map_fst_of_mem {m : List (PeerId × PeerCuckooFilter)} {p : PeerId}
    (f : PeerCuckooFilter) (hp : p ∈ m.map Prod.fst) :
    (insertAssoc m p f).map Prod.fst = m.map Prod.fst := by
  simp only [insertAssoc, if_pos hp, List.map_map]
  apply List.map_congr_left
  intro e _
  by_cases he : e.1 = p
  · simp [he]
  · simp [he]

/-- Upserting a fresh peer appends its entry. -/
theorem insertAssoc_of_not_mem {m : List (PeerId × PeerCuckooFilter)} {p : PeerId}
    (f : PeerCuckooFilter) (hp : p ∉ m.map Prod.fst) :
    insertAssoc m p f = m ++ [(p, f)] := by
  simp [insertAssoc, hp]

/-- An upsert grows the map by at most one entry. -/
theorem insertAssoc_length_le (m : List (PeerId × PeerCuckooFilter)) (p : PeerId)
    (f : PeerCuckooFilter) : (insertAssoc m p f).length ≤ m.length + 1 := by
  by_cases hp : p ∈ m.map Prod.fst
  · simp [insertAssoc, hp]
  · simp [insertAssoc, hp]

/-- An upsert keeps the key list duplicate-free. -/
theorem insertAssoc_nodup {m : List (PeerId × PeerCuckooFilter)} {p : PeerId}
    (f : PeerCuckooFilter) (hnd : (m.map Prod.fst).Nodup) :
    ((insertAssoc m p f).map Prod.fst).Nodup := by
  by_cases hp : p ∈ m.map Prod.fst
  · rw [insertAssoc_map_fst_of_mem f hp]
    exact hnd
  · rw [insertAssoc_of_not_mem f hp]
    simp only [List.map_append, List.map_cons, List.map_nil]
    exact List.Nodup.append hnd (List.nodup_singleton p) (by simpa using hp)

/-- Unfolding of `removeAssoc` over a cons cell. -/
theorem removeAssoc_cons (a : PeerId × PeerCuckooFilter) (t : List (PeerId × PeerCuckooFilter))
    (p : PeerId) :
    removeAssoc (a :: t) p = if a.1 = p then removeAssoc t p else a :: removeAssoc t p := by
  by_cases ha : a.1 = p
  · simp [removeAssoc, List.filter_cons, ha]
  · simp [removeAssoc, List.filter_cons, ha]

/-- Removing an untracked peer is a no-op. -/
theorem removeAssoc_of_not_mem {m : List (PeerId × PeerCuckooFilter)} {p : PeerId}
    (hp : p ∉ m.map Prod.fst) : removeAssoc m p = m := by
  induction m with
  | nil => rfl
  | cons a t ih =>
    simp only [List.map_cons, List.mem_cons, not_or] at hp
    have ha : ¬a.1 = p := fun h => hp.1 h.symm
    rw [removeAssoc_cons, if_neg ha, ih hp.2]

/-- Removing a tracked peer from a duplicate-free map removes exactly one
entry. -/
theorem removeAssoc_length_of_mem {m : List (PeerId × PeerCuckooFilter)} {p : PeerId}
    (hnd : (m.map Prod.fst).Nodup) (hp : p ∈ m.map Prod.fst) :
    (removeAssoc m p).length = m.length - 1 := by
  induction m with
  | nil => simp at hp
  | cons a t ih =>
    simp only [List.map_cons, List.nodup_cons] at hnd
    simp only [List.map_cons, List.mem_cons] at hp
    rw [removeAssoc_cons]
    by_cases ha : a.1 = p
    · have hnt : p ∉ t.map Prod.fst := ha ▸ hnd.1
      rw [if_pos ha, removeAssoc_of_not_mem hnt]
      simp
    · have hpt : p ∈ t.map Prod.fst := by
        rcases hp with h | h
        · exact absurd h.symm ha
        · exact h
      have hl : 1 ≤ t.length := by
        rcases List.mem_map.mp hpt with ⟨e, he, _⟩
        exact List.length_pos.mpr (List.ne_nil_of_mem he)
      rw [if_neg ha]
      simp only [List.length_cons, ih hnd.2 hpt]
      omega

/-- Removal never adds entries. -/
theorem removeAssoc_sublist (m : List (PeerId × PeerCuckooFilter)) (p : PeerId) :
    List.Sublist (removeAssoc m p) m :=
  List.filter_sublist m

/-- Key list of a removal stays duplicate-free. -/
theorem removeAssoc_nodup {m : List (PeerId × PeerCuckooFilter)} (p : PeerId)
    (hnd : (m.map Prod.fst).Nodup) : ((removeAssoc m p).map Prod.fst).Nodup :=
  List.Nodup.sublist (List.Sublist.map Prod.fst (removeAssoc_sublist m p)) hnd

/-- When the limit is exceeded, the eviction choice lands on a tracked peer
(given that the key enumeration is a permutation of the key set and the
random draw respects its range). -/
theorem evictedPeer_mem (hashPeer : PeerId → Nat) (genRange : Nat → Nat → Nat)
    (enum : List (PeerId × PeerCuckooFilter) → List PeerId)
    (m1 : List (PeerId × PeerCuckooFilter)) (p : PeerId)
    (hg : ∀ s n, 0 < n → genRange s n < n)
    (he : ∀ l, (enum l).Perm (l.map Prod.fst))
    (h51 : CONNECTED_PEERS_NUMBER_LIMIT < m1.length) :
    ∃ v, evictedPeer hashPeer genRange enum m1 p = some v ∧ v ∈ m1.map Prod.fst := by
  have hlen : (enum m1).length = m1.length := by
    rw [(he m1).length_eq, List.length_map]
  have hpos : 0 < (enum m1).length := by
    rw [hlen]
    omega
  refine ⟨(enum m1).getD (genRange (hashPeer p) (enum m1).length) 0, ?_, ?_⟩
  · simp [evictedPeer, if_pos h51]
  · have hidx : genRange (hashPeer p) (enum m1).length < (enum m1).length :=
      hg _ _ hpos
    have hmem : (enum m1).getD (genRange (hashPeer p) (enum m1).length) 0 ∈ enum m1 := by
      rw [List.getD_eq_getElem _ _ hidx]
      exact List.getElem_mem hidx
    exact (he m1).mem_iff.mp hmem

/-- Single-step bound: one `update_cuckoo_filter` call keeps the tracked-peer
count at or below the limit and the key list duplicate-free. -/
theorem updateCuckooFilter_step (hashPeer : PeerId → Nat) (genRange : Nat → Nat → Nat)
    (enum : List (PeerId × PeerCuckooFilter) → List PeerId)
    (m : List (PeerId × PeerCuckooFilter)) (p : PeerId) (dto : CuckooFilterDTO)
    (hg : ∀ s n, 0 < n → genRange s n < n)
    (he : ∀ l, (enum l).Perm (l.map Prod.fst))
    (hnd : (m.map Prod.fst).Nodup) (hlen : m.length ≤ CONNECTED_PEERS_NUMBER_LIMIT) :
    (updateCuckooFilter hashPeer genRange enum m p dto).length ≤ CONNECTED_PEERS_NUMBER_LIMIT ∧
    ((updateCuckooFilter hashPeer genRange enum m p dto).map Prod.fst).Nodup := by
  have hnd1 : ((insertAssoc m p (dtoToFilter dto)).map Prod.fst).Nodup :=
    insertAssoc_nodup _ hnd
  have hlen1 : (insertAssoc m p (dtoToFilter dto)).length ≤ m.length + 1 :=
    insertAssoc_length_le m p (dtoToFilter dto)
  by_cases h51 : CONNECTED_PEERS_NUMBER_LIMIT < (insertAssoc m p (dtoToFilter dto)).length
  · obtain ⟨v, hv, hvm⟩ := evictedPeer_mem hashPeer genRange enum _ p hg he h51
    have hupd : updateCuckooFilter hashPeer genRange enum m p dto =
        removeAssoc (insertAssoc m p (dtoToFilter dto)) v := by
      unfold updateCuckooFilter
      rw [hv]
    rw [hupd]
    refine ⟨?_, removeAssoc_nodup v hnd1⟩
    rw [removeAssoc_length_of_mem hnd1 hvm]
    omega
  · have hnone : evictedPeer hashPeer genRange enum (insertAssoc m p (dtoToFilter dto)) p =
        none := by
      simp [evictedPeer, h51]
    have hupd : updateCuckooFilter hashPeer genRange enum m p dto =
        insertAssoc m p (dtoToFilter dto) := by
      unfold updateCuckooFilter
      rw [hnone]
    rw [hupd]
    exact ⟨by omega, hnd1⟩

/-- Same single-step preservation for `remove_peer_filter`. -/
theorem removePeerFilter_step (m : List (PeerId × PeerCuckooFilter)) (p : PeerId)
    (hnd : (m.map Prod.fst).Nodup) (hlen : m.length ≤ CONNECTED_PEERS_NUMBER_LIMIT) :
    (removePeerFilter m p).length ≤ CONNECTED_PEERS_NUMBER_LIMIT ∧
    ((removePeerFilter m p).map Prod.fst).Nodup := by
  refine ⟨?_, removeAssoc_nodup p hnd⟩
  have := (removeAssoc_sublist m p).length_le
  exact le_trans this hlen

/-- Invariant of any operation sequence starting from any in-bounds state. -/
theorem foldl_applyOp_inv (hashPeer : PeerId → Nat) (genRange : Nat → Nat → Nat)
    (enum : List (PeerId × PeerCuckooFilter) → List PeerId)
    (hg : ∀ s n, 0 < n → genRange s n < n)
    (he : ∀ l, (enum l).Perm (l.map Prod.fst)) :
    ∀ (ops : List ASOp) (m : List (PeerId × PeerCuckooFilter)),
      (m.map Prod.fst).Nodup → m.length ≤ CONNECTED_PEERS_NUMBER_LIMIT →
      (ops.foldl (applyOp hashPeer genRange enum) m).length ≤ CONNECTED_PEERS_NUMBER_LIMIT ∧
      ((ops.foldl (applyOp hashPeer genRange enum) m).map Prod.fst).Nodup := by
  intro ops
  induction ops with
  | nil => intro m hnd hlen; exact ⟨hlen, hnd⟩
  | cons op rest ih =>
    intro m hnd hlen
    rw [List.foldl_cons]
    match op with
    | .update p dto =>
      obtain ⟨h1, h2⟩ := updateCuckooFilter_step hashPeer genRange enum m p dto hg he hnd hlen
      exact ih _ h2 h1
    | .removePeer p =>
      obtain ⟨h1, h2⟩ := removePeerFilter_step m p hnd hlen
      exact ih _ h2 h1

/-- C8: after every call to `update_cuckoo_filter` the number of tracked
peers is at most `CONNECTED_PEERS_NUMBER_LIMIT` (from the default empty
state, any interleaving of updates and removals keeps the bound); an
update that inserts a 51st distinct peer always leaves exactly 50 peers —
exactly one peer is evicted — and no eviction happens while the
post-insert count is within the limit. -/
theorem claim_c8_peer_limit (hashPeer : PeerId → Nat) (genRange : Nat → Nat → Nat)
    (enum : List (PeerId × PeerCuckooFilter) → List PeerId) (ops : List ASOp)
    (m : List (PeerId × PeerCuckooFilter)) (p : PeerId) (dto : CuckooFilterDTO)
    (hg : ∀ s n, 0 < n → genRange s n < n)
    (he : ∀ l, (enum l).Perm (l.map Prod.fst))
    (hnd : (m.map Prod.fst).Nodup) :
    (runOps hashPeer genRange enum ops).length ≤ CONNECTED_PEERS_NUMBER_LIMIT ∧
    (m.length ≤ CONNECTED_PEERS_NUMBER_LIMIT →
      (updateCuckooFilter hashPeer genRange enum m p dto).length ≤
        CONNECTED_PEERS_NUMBER_LIMIT) ∧
    (m.length = CONNECTED_PEERS_NUMBER_LIMIT → p ∉ m.map Prod.fst →
      (updateCuckooFilter hashPeer genRange enum m p dto).length =
        CONNECTED_PEERS_NUMBER_LIMIT) ∧
    ((insertAssoc m p (dtoToFilter dto)).length ≤ CONNECTED_PEERS_NUMBER_LIMIT →
      updateCuckooFilter hashPeer genRange enum m p dto = insertAssoc m p (dtoToFilter dto)) := by
  refine ⟨?_, ?_, ?_, ?_⟩
  · exact (foldl_applyOp_inv hashPeer genRange enum hg he ops [] (by simp) (by simp)).1
  · intro hlen
    exact (updateCuckooFilter_step hashPeer genRange enum m p dto hg he hnd hlen).1
  · intro hlen hp
    have hins : insertAssoc m p (dtoToFilter dto) = m ++ [(p, dtoToFilter dto)] :=
      insertAssoc_of_not_mem _ hp
    have hlen1 : (insertAssoc m p (dtoToFilter dto)).length =
        CONNECTED_PEERS_NUMBER_LIMIT + 1 := by
      rw [hins]
      simp [hlen]
    have hnd1 : ((insertAssoc m p (dtoToFilter dto)).map Prod.fst).Nodup :=
      insertAssoc_nodup _ hnd
    have h51 : CONNECTED_PEERS_NUMBER_LIMIT < (insertAssoc m p (dtoToFilter dto)).length := by
      omega
    obtain ⟨v, hv, hvm⟩ := evictedPeer_mem hashPeer genRange enum _ p hg he h51
    have hupd : updateCuckooFilter hashPeer genRange enum m p dto =
        removeAssoc (insertAssoc m p (dtoToFilter dto)) v := by
      unfold updateCuckooFilter
      rw [hv]
    rw [hupd, removeAssoc_length_of_mem hnd1 hvm, hlen1]
    omega
  · intro hle
    have h51 : ¬CONNECTED_PEERS_NUMBER_LIMIT < (insertAssoc m p (dtoToFilter dto)).length := by
      omega
    have hnone : evictedPeer hashPeer genRange enum (insertAssoc m p (dtoToFilter dto)) p =
        none := by
      simp [evictedPeer, h51]
    unfold updateCuckooFilter
    rw [hnone]

/-- Identity hash over the numeric peer ids, a concrete instance of the
peer-identity hash. -/
def hashId : PeerId → Nat := fun p => p

/-- Concrete seeded draw that always picks index 0. -/
def genZero : Nat → Nat → Nat := fun _ _ => 0

/-- Concrete seeded draw that always picks the final index. -/
def genLast : Nat → Nat → Nat := fun _ n => n - 1

/-- Key enumeration in entry order — one legitimate `HashMap::keys()`
behaviour. -/
def enumFwd : List (PeerId × PeerCuckooFilter) → List PeerId := fun l => l.map Prod.fst

/-- Key enumeration in reversed entry order — another legitimate
`HashMap::keys()` behaviour (the order is randomized per map instance). -/
def enumRev : List (PeerId × PeerCuckooFilter) → List PeerId := fun l => (l.map Prod.fst).reverse

/-- An empty filter snapshot. -/
def dtoEmpty : CuckooFilterDTO := { values := [], length := 0 }

/-- Fifty distinct tracked peers with empty filters. -/
def peers50 : List (PeerId × PeerCuckooFilter) :=
  (List.range 50).map (fun i => (i, dtoToFilter dtoEmpty))

/-- Witness for C8 at concrete oracles, a concrete operation list and the
concrete fifty-peer state, inserting the 51st distinct peer. -/
theorem claim_c8_witness :
    (∀ s n, 0 < n → genZero s n < n) ∧
    (∀ l, (enumFwd l).Perm (l.map Prod.fst)) ∧
    (peers50.map Prod.fst).Nodup ∧
    ((runOps hashId genZero enumFwd [ASOp.update 0 dtoEmpty]).length ≤
        CONNECTED_PEERS_NUMBER_LIMIT ∧
      (peers50.length ≤ CONNECTED_PEERS_NUMBER_LIMIT →
        (updateCuckooFilter hashId genZero enumFwd peers50 50 dtoEmpty).length ≤
          CONNECTED_PEERS_NUMBER_LIMIT) ∧
      (peers50.length = CONNECTED_PEERS_NUMBER_LIMIT → 50 ∉ peers50.map Prod.fst →
        (updateCuckooFilter hashId genZero enumFwd peers50 50 dtoEmpty).length =
          CONNECTED_PEERS_NUMBER_LIMIT) ∧
      ((insertAssoc peers50 50 (dtoToFilter dtoEmpty)).length ≤ CONNECTED_PEERS_NUMBER_LIMIT →
        updateCuckooFilter hashId genZero enumFwd peers50 50 dtoEmpty =
          insertAssoc peers50 50 (dtoToFilter dtoEmpty))) :=
  ⟨fun _ _ h => h, fun _ => List.Perm.refl _, by decide,
    claim_c8_peer_limit hashId genZero enumFwd [ASOp.update 0 dtoEmpty] peers50 50 dtoEmpty
      (fun _ _ h => h) (fun _ => List.Perm.refl _) (by decide)⟩

/-- C9 counterexample: the claim says two runs performing the identical
operation sequence always evict the same peer.  But the victim is picked by
indexing into `peer_filters.keys().cloned().collect::<Vec<_>>()`, and Rust's
`HashMap` key iteration order is randomized per map instance, so it is not a
function of the operation sequence.  Here the identical update of peer 50
against the identical fifty-peer state, with the same deterministic seeded
draw, removes different peers under two legitimate key enumerations (each a
permutation of the key set, as `keys()` guarantees). -/
theorem claim_c9_counterexample :
    updateCuckooFilter hashId genZero enumFwd peers50 50 dtoEmpty ≠
      updateCuckooFilter hashId genZero enumRev peers50 50 dtoEmpty ∧
    (∀ l, (enumFwd l).Perm (l.map Prod.fst)) ∧
    (∀ l, (enumRev l).Perm (l.map Prod.fst)) ∧
    (∀ s n, 0 < n → genZero s n < n) :=
  ⟨by decide, fun _ => List.Perm.refl _, fun l => List.reverse_perm _, fun _ _ h => h⟩

/-- C9 amended: the random index is a deterministic function of the
just-updated peer's identity hash (no global random source is consulted), so
the eviction choice depends only on the enumerated key list of the
post-insert map and on the updated peer — not on the stored filter contents
nor on which earlier operations produced the state.  Fixing the key
enumeration, two runs whose post-insert key enumerations agree evict the
same peer; across real runs the `HashMap` enumeration itself may differ, and
only then can the victims differ. -/
theorem claim_c9_deterministic_given_enum (hashPeer : PeerId → Nat)
    (genRange : Nat → Nat → Nat) (enum : List (PeerId × PeerCuckooFilter) → List PeerId)
    (m1 m2 : List (PeerId × PeerCuckooFilter)) (p : PeerId) (f1 f2 : CuckooFilterDTO)
    (he : ∀ l, (enum l).Perm (l.map Prod.fst))
    (hkeys : enum (insertAssoc m1 p (dtoToFilter f1)) =
      enum (insertAssoc m2 p (dtoToFilter f2))) :
    evictedPeer hashPeer genRange enum (insertAssoc m1 p (dtoToFilter f1)) p =
      evictedPeer hashPeer genRange enum (insertAssoc m2 p (dtoToFilter f2)) p := by
  have hl1 : (enum (insertAssoc m1 p (dtoToFilter f1))).length =
      (insertAssoc m1 p (dtoToFilter f1)).length := by
    rw [(he _).length_eq, List.length_map]
  have hl2 : (enum (insertAssoc m2 p (dtoToFilter f2))).length =
      (insertAssoc m2 p (dtoToFilter f2)).length := by
    rw [(he _).length_eq, List.length_map]
  have hlen : (insertAssoc m1 p (dtoToFilter f1)).length =
      (insertAssoc m2 p (dtoToFilter f2)).length := by
    rw [← hl1, ← hl2, hkeys]
  unfold evictedPeer
  rw [hkeys, hlen]

/-- Fifty distinct tracked peers carrying one filter payload. -/
def peersA : List (PeerId × PeerCuckooFilter) :=
  (List.range 50).map (fun i => (i, dtoToFilter { values := [1], length := 1 }))

/-- The same fifty peers carrying a different filter payload. -/
def peersB : List (PeerId × PeerCuckooFilter) :=
  (List.range 50).map (fun i => (i, dtoToFilter { values := [2], length := 1 }))

/-- Witness for the amended C9: two states with the same keys but different
filter payloads yield the same eviction choice for the same updated peer. -/
theorem claim_c9_witness :
    (∀ l, (enumFwd l).Perm (l.map Prod.fst)) ∧
    enumFwd (insertAssoc peersA 50 (dtoToFilter { values := [1], length := 1 })) =
      enumFwd (insertAssoc peersB 50 (dtoToFilter { values := [2], length := 1 })) ∧
    evictedPeer hashId genZero enumFwd
        (insertAssoc peersA 50 (dtoToFilter { values := [1], length := 1 })) 50 =
      evictedPeer hashId genZero enumFwd
        (insertAssoc peersB 50 (dtoToFilter { values := [2], length := 1 })) 50 :=
  ⟨fun _ => List.Perm.refl _, by decide,
    claim_c9_deterministic_given_enum hashId genZero enumFwd peersA peersB 50
      { values := [1], length := 1 } { values := [2], length := 1 }
      (fun _ => List.Perm.refl _) (by decide)⟩

/-- Fifty update operations inserting distinct peers 0 .. 49. -/
def opsFill : List ASOp := (List.range 50).map (fun i => ASOp.update i dtoEmpty)

/-- Those fifty updates followed by an update of peer 50. -/
def opsC10 : List ASOp := opsFill ++ [ASOp.update 50 dtoEmpty]

set_option maxRecDepth 100000 in
/-- C10: the random victim is drawn from the full post-insert peer set
including the caller's peer, so for some operation sequence
`update_cuckoo_filter` evicts the very peer it just inserted: after fifty
distinct peers, updating peer 50 puts it into the tracked set (third
conjunct) yet the state after the update no longer contains it (fourth
conjunct), under a seeded draw respecting the `gen_range(0..len)` contract
(first conjunct) and a key enumeration that is a permutation of the key set
(second conjunct). -/
theorem claim_c10_self_eviction :
    (∀ s n, 0 < n → genLast s n < n) ∧
    (∀ l, (enumFwd l).Perm (l.map Prod.fst)) ∧
    50 ∈ (insertAssoc (runOps hashId genLast enumFwd opsFill) 50
      (dtoToFilter dtoEmpty)).map Prod.fst ∧
    50 ∉ (runOps hashId genLast enumFwd opsC10).map Prod.fst :=
  ⟨fun _ n h => Nat.sub_lt h Nat.one_pos, fun _ => List.Perm.refl _, by decide, by decide⟩

/-- Helper for C6: once the wait loop is in the stuck regime (all future
best-number reads frozen at `b`, gap at least the limit) with an already
empty batch, it spins forever, submitting nothing further. -/
theorem waitLoop_stuck_aux (env : Env) (bn b : Nat)
    (hconst : ∀ k, env.best k = b) (hgap : QUEUED_BLOCKS_LIMIT ≤ bn - b) :
    ∀ (fuel : Nat) (s : BlkSt), s.batch = [] → s.bestVar = b →
      (waitLoop env bn fuel s).isSpin = true ∧
      (waitLoop env bn fuel s).st.subs = s.subs ∧
      (waitLoop env bn fuel s).st.batch = [] ∧
      (waitLoop env bn fuel s).st.bestVar = b := by
  intro fuel
  induction fuel with
  | zero =>
    intro s hb hv
    exact ⟨rfl, rfl, hb, hv⟩
  | succ n ih =>
    intro s hb hv
    have hcond : QUEUED_BLOCKS_LIMIT ≤ bn - s.bestVar := by
      rw [hv]
      exact hgap
    have hbe : s.batch.isEmpty = true := by
      rw [hb]
      rfl
    simp only [waitLoop, if_pos hcond, hbe, if_pos]
    exact ih { s with bestVar := env.best s.readIdx, readIdx := s.readIdx + 1 }
      hb (hconst s.readIdx)

/-- C6: whenever the gap between the next block number and the best imported
block number is at least `QUEUED_BLOCKS_LIMIT` and the best-block number
never advances, the wait loop flushes the currently accumulated batch (if
non-empty) exactly once, keeps polling the best-block number (spin), and no
further batch is ever submitted beyond that flush. -/
theorem claim_c6_backpressure (env : Env) (bn b : Nat) (s : BlkSt)
    (hconst : ∀ k, env.best k = b)
    (hgap : QUEUED_BLOCKS_LIMIT ≤ bn - b)
    (hcur : s.bestVar = b) :
    ∀ fuel : Nat,
      (waitLoop env bn (fuel + 1) s).isSpin = true ∧
      (waitLoop env bn (fuel + 1) s).st.subs =
        s.subs ++ (if s.batch.isEmpty then [] else [(Origin.initialSync, s.batch)]) ∧
      (waitLoop env bn (fuel + 1) s).st.batch = [] ∧
      (waitLoop env bn (fuel + 1) s).st.bestVar = b := by
  intro fuel
  have hcond : QUEUED_BLOCKS_LIMIT ≤ bn - s.bestVar := by
    rw [hcur]
    exact hgap
  by_cases hbe : s.batch.isEmpty
  · simp only [waitLoop, if_pos hcond, hbe, if_pos]
    have hb : s.batch = [] := List.isEmpty_iff.mp hbe
    have haux := waitLoop_stuck_aux env bn b hconst hgap fuel
      { s with bestVar := env.best s.readIdx, readIdx := s.readIdx + 1 } hb (hconst s.readIdx)
    simpa [hbe] using haux
  · simp only [waitLoop, if_pos hcond, hbe, Bool.false_eq_true, if_false]
    have haux := waitLoop_stuck_aux env bn b hconst hgap fuel
      { bestVar := env.best s.readIdx, readIdx := s.readIdx + 1, batch := [],
        subs := s.subs ++ [(Origin.initialSync, s.batch)], downloaded := s.downloaded }
      rfl (hconst s.readIdx)
    simpa [hbe] using haux

/-- Concrete environment whose best-block oracle never advances. -/
def envStuck : Env :=
  { headers := [], best := fun _ => 0, contents := fun _ => none,
    localBlockBytes := fun _ => [], decodeOk := fun _ => true }

/-- Concrete block-loop state holding one queued block. -/
def sStuck : BlkSt :=
  { bestVar := 0, readIdx := 0, batch := [5], subs := [], downloaded := 0 }

/-- Witness for C6 with a frozen best-block oracle, one fuel step and a
non-empty batch: the loop spins after exactly one flush. -/
theorem claim_c6_witness :
    (∀ k, envStuck.best k = 0) ∧
    QUEUED_BLOCKS_LIMIT ≤ 2048 - 0 ∧
    sStuck.bestVar = 0 ∧
    ((waitLoop envStuck 2048 (0 + 1) sStuck).isSpin = true ∧
      (waitLoop envStuck 2048 (0 + 1) sStuck).st.subs =
        sStuck.subs ++
          (if sStuck.batch.isEmpty then [] else [(Origin.initialSync, sStuck.batch)]) ∧
      (waitLoop envStuck 2048 (0 + 1) sStuck).st.batch = [] ∧
      (waitLoop envStuck 2048 (0 + 1) sStuck).st.bestVar = 0) :=
  ⟨fun _ => rfl, by decide, rfl,
    claim_c6_backpressure envStuck 2048 0 sStuck (fun _ => rfl) (by decide) rfl 0⟩

/-- Event trace of either outcome of `fetchSegment`. -/
def fetchResultEvents : Sum (LoopRes St) St → List (Nat × SegEvent)
  | .inl r => r.st.events
  | .inr st' => st'.events

/-- A fetched segment records exactly one `fetched` event, whatever the
outcome of reconstruction and block processing. -/
theorem fetchSegment_events (env : Env) (fuel i : Nat) (isLast : Bool) (st : St)
    (readIdx : Nat) :
    fetchResultEvents (fetchSegment env fuel i isLast st readIdx) =
      st.events ++ [(i, SegEvent.fetched)] := by
  unfold fetchSegment
  cases env.contents i with
  | none => rfl
  | some blocks =>
    simp only []
    cases procBlocks env fuel blocks _ with
    | fail e s => rfl
    | spin s => rfl
    | done s =>
      by_cases hbe : s.batch.isEmpty
      · simp [hbe, fetchResultEvents, mergeSt, LoopRes.st]
      · by_cases hl : isLast
        · rcases hgl : s.batch.getLast? with _ | lb
          · simp [hbe, hl, hgl, fetchResultEvents, mergeSt]
          · simp [hbe, hl, hgl, fetchResultEvents, mergeSt]
        · simp [hbe, hl, fetchResultEvents, mergeSt]

/-- Events are only ever appended by the segment loop. -/
theorem procSegments_events_prefix (env : Env) (fuel : Nat) :
    ∀ (idxs : List Nat) (st : St),
      ∃ t, (procSegments env fuel idxs st).st.events = st.events ++ t := by
  intro idxs
  induction idxs with
  | nil =>
    intro st
    exact ⟨[], by simp [procSegments, LoopRes.st]⟩
  | cons i rest ih =>
    intro st
    simp only [procSegments]
    cases hh : env.headers[i]? with
    | none =>
      cases hfs : fetchSegment env fuel i rest.isEmpty st st.readIdx with
      | inl r =>
        have := fetchSegment_events env fuel i rest.isEmpty st st.readIdx
        rw [hfs] at this
        exact ⟨[(i, SegEvent.fetched)], this⟩
      | inr st' =>
        have hev := fetchSegment_events env fuel i rest.isEmpty st st.readIdx
        rw [hfs] at hev
        obtain ⟨t, ht⟩ := ih st'
        refine ⟨[(i, SegEvent.fetched)] ++ t, ?_⟩
        rw [ht, show fetchResultEvents (Sum.inr st') = st'.events from rfl] at *
        rw [hev]
        simp
    | some h =>
      by_cases h1 : h.lastArchivedBlockNumber ≤ env.best st.readIdx
      · simp only [if_pos h1]
        obtain ⟨t, ht⟩ := ih
          { st with readIdx := st.readIdx + 1, events := st.events ++ [(i, SegEvent.skipped)] }
        exact ⟨[(i, SegEvent.skipped)] ++ t, by rw [ht]; simp⟩
      · simp only [if_neg h1]
        by_cases h2 : h.lastArchivedBlockNumber = env.best (st.readIdx + 1) + 1 ∧
            h.lastBlockIncomplete = true ∧ rest = []
        · simp only [if_pos h2]
          obtain ⟨t, ht⟩ := ih
            { st with readIdx := st.readIdx + 2, events := st.events ++ [(i, SegEvent.skipped)] }
          exact ⟨[(i, SegEvent.skipped)] ++ t, by rw [ht]; simp⟩
        · simp only [if_neg h2]
          cases hfs : fetchSegment env fuel i rest.isEmpty st (st.readIdx + 2) with
          | inl r =>
            have := fetchSegment_events env fuel i rest.isEmpty st (st.readIdx + 2)
            rw [hfs] at this
            exact ⟨[(i, SegEvent.fetched)], this⟩
          | inr st' =>
            have hev := fetchSegment_events env fuel i rest.isEmpty st (st.readIdx + 2)
            rw [hfs] at hev
            obtain ⟨t, ht⟩ := ih st'
            refine ⟨[(i, SegEvent.fetched)] ++ t, ?_⟩
            rw [ht, show fetchResultEvents (Sum.inr st') = st'.events from rfl] at *
            rw [hev]
            simp

/-- Lookup just past a known prefix of the event trace. -/
theorem getElem?_append_len (l t : List (Nat × SegEvent)) (a : Nat × SegEvent) :
    (l ++ a :: t)[l.length]? = some a := by
  rw [List.getElem?_append_right (Nat.le_refl l.length)]
  simp

/-- C5: with the two consecutive best-number reads of the header check both
returning `b`, processing segment `i` records a `skipped` event — skipping
the segment without fetching any pieces and resetting the reconstructor —
exactly when the segment's last archived block number is at most `b`, or the
segment is the last one available and its last archived block is exactly
`b + 1` but only partially archived. -/
theorem claim_c5_skip_condition (env : Env) (fuel i : Nat) (rest : List Nat) (st : St)
    (h : SegmentHeader) (b : Nat)
    (hh : env.headers[i]? = some h)
    (hb1 : env.best st.readIdx = b)
    (hb2 : env.best (st.readIdx + 1) = b) :
    ((procSegments env fuel (i :: rest) st).st.events)[st.events.length]? =
      some (i, SegEvent.skipped) ↔
    (h.lastArchivedBlockNumber ≤ b ∨
      (h.lastArchivedBlockNumber = b + 1 ∧ h.lastBlockIncomplete = true ∧ rest = [])) := by
  simp only [procSegments, hh]
  by_cases h1 : h.lastArchivedBlockNumber ≤ env.best st.readIdx
  · simp only [if_pos h1]
    obtain ⟨t, ht⟩ := procSegments_events_prefix env fuel rest
      { st with readIdx := st.readIdx + 1, events := st.events ++ [(i, SegEvent.skipped)] }
    rw [ht]
    simp only [List.append_assoc, List.singleton_append, getElem?_append_len]
    rw [hb1] at h1
    simp [h1]
  · simp only [if_neg h1]
    by_cases h2 : h.lastArchivedBlockNumber = env.best (st.readIdx + 1) + 1 ∧
        h.lastBlockIncomplete = true ∧ rest = []
    · simp only [if_pos h2]
      obtain ⟨t, ht⟩ := procSegments_events_prefix env fuel rest
        { st with readIdx := st.readIdx + 2, events := st.events ++ [(i, SegEvent.skipped)] }
      rw [ht]
      simp only [List.append_assoc, List.singleton_append, getElem?_append_len]
      rw [hb2] at h2
      simp [h2]
    · simp only [if_neg h2]
      rw [hb1] at h1
      rw [hb2] at h2
      have hrhs : ¬(h.lastArchivedBlockNumber ≤ b ∨
          (h.lastArchivedBlockNumber = b + 1 ∧ h.lastBlockIncomplete = true ∧ rest = [])) := by
        intro hcontra
        rcases hcontra with hc | hc
        · exact h1 hc
        · exact h2 hc
      cases hfs : fetchSegment env fuel i rest.isEmpty st (st.readIdx + 2) with
      | inl r =>
        have hev := fetchSegment_events env fuel i rest.isEmpty st (st.readIdx + 2)
        rw [hfs] at hev
        have hev' : r.st.events = st.events ++ [(i, SegEvent.fetched)] := hev
        rw [hev']
        rw [show st.events ++ [(i, SegEvent.fetched)] =
          st.events ++ (i, SegEvent.fetched) :: [] from rfl, getElem?_append_len]
        simp only [hrhs, iff_false]
        intro hcontra
        simp at hcontra
      | inr st' =>
        have hev := fetchSegment_events env fuel i rest.isEmpty st (st.readIdx + 2)
        rw [hfs] at hev
        have hev' : st'.events = st.events ++ [(i, SegEvent.fetched)] := hev
        obtain ⟨t, ht⟩ := procSegments_events_prefix env fuel rest st'
        rw [ht, hev']
        simp only [List.append_assoc, List.singleton_append, getElem?_append_len]
        simp only [hrhs, iff_false]
        intro hcontra
        simp at hcontra

/-- Concrete environment where segment 1 is already covered by the local
best block. -/
def envSkip : Env :=
  { headers := [⟨0, false⟩, ⟨1, false⟩], best := fun _ => 1, contents := fun _ => none,
    localBlockBytes := fun _ => [], decodeOk := fun _ => true }

/-- Witness for C5: with best frozen at 1 and segment 1 covering blocks up
to 1, the driver records a `skipped` event for segment 1, matching the skip
condition. -/
theorem claim_c5_witness :
    envSkip.headers[1]? = some ⟨1, false⟩ ∧
    envSkip.best initSt.readIdx = 1 ∧
    envSkip.best (initSt.readIdx + 1) = 1 ∧
    (((procSegments envSkip 2 [1] initSt).st.events)[initSt.events.length]? =
        some (1, SegEvent.skipped) ↔
      ((SegmentHeader.mk 1 false).lastArchivedBlockNumber ≤ 1 ∨
        ((SegmentHeader.mk 1 false).lastArchivedBlockNumber = 1 + 1 ∧
          (SegmentHeader.mk 1 false).lastBlockIncomplete = true ∧ ([] : List Nat) = []))) :=
  ⟨rfl, rfl, rfl,
    claim_c5_skip_condition envSkip 2 1 [] initSt ⟨1, false⟩ 1 rfl rfl rfl⟩

/-- Concrete environment refuting C1: segment 1 contains block 1 with bytes
`[9, 9]`, the local chain stores block 1 as `[1]`, and block 1 is at or
below the local best block number 1. -/
def envC1 : Env :=
  { headers := [⟨0, false⟩, ⟨2, false⟩],
    best := fun _ => 1,
    contents := fun i => if i = 1 then some [(1, [9, 9]), (2, [2])] else none,
    localBlockBytes := fun n => [n],
    decodeOk := fun _ => true }

/-- C1 counterexample: a reconstructed block (number 1) at or below the
local best block number decodes to bytes that differ from the locally
stored block, yet the run completes successfully — no `ChainMismatch` is
raised, because the byte-for-byte validation is performed only for block
number 0, not for every already-imported block. -/
theorem claim_c1_counterexample :
    envC1.localBlockBytes 1 ≠ [9, 9] ∧
    (1, [9, 9]) ∈ (envC1.contents 1).getD [] ∧
    (1 : Nat) ≤ envC1.best 2 ∧
    (runDriver envC1 4).isDone = true :=
  ⟨by decide, by decide, by decide, by decide⟩

/-- C1 amended: of the reconstructed blocks at or below the local best
block number, only the genesis block (number 0) is validated byte-for-byte
against the locally stored block — a mismatch there aborts the run with the
fatal chain-mismatch error — while every other already-imported block is
skipped with no byte validation at all. -/
theorem claim_c1_genesis_only_validation (env : Env) (fuel bn : Nat) (bytes : Bytes)
    (rest : List (Nat × Bytes)) (s : BlkSt) (hle : bn ≤ s.bestVar) :
    (bn = 0 → env.localBlockBytes 0 ≠ bytes →
      procBlocks env fuel ((bn, bytes) :: rest) s = .fail RunError.chainMismatch s) ∧
    (bn ≠ 0 → procBlocks env fuel ((bn, bytes) :: rest) s = procBlocks env fuel rest s) := by
  constructor
  · intro h0 hne
    subst h0
    simp only [procBlocks, if_pos hle, if_pos rfl, if_neg hne]
    simp
  · intro hne
    simp only [procBlocks, if_pos hle, if_neg hne]

/-- Concrete environment for the C1 witness. -/
def envC1W : Env :=
  { headers := [], best := fun _ => 0, contents := fun _ => none,
    localBlockBytes := fun _ => [0], decodeOk := fun _ => true }

/-- Concrete block-loop state for the C1 witness. -/
def sC1W : BlkSt := { bestVar := 1, readIdx := 0, batch := [], subs := [], downloaded := 0 }

/-- Witness for the amended C1: a genesis byte mismatch fails the run with
the chain-mismatch error, and a non-genesis already-imported block is
skipped without any validation. -/
theorem claim_c1_witness :
    ((0 : Nat) ≤ sC1W.bestVar ∧
      ((0 : Nat) = 0 → envC1W.localBlockBytes 0 ≠ [1] →
        procBlocks envC1W 4 [(0, [1])] sC1W = .fail RunError.chainMismatch sC1W)) ∧
    ((1 : Nat) ≤ sC1W.bestVar ∧
      ((1 : Nat) ≠ 0 →
        procBlocks envC1W 4 [(1, [7])] sC1W = procBlocks envC1W 4 [] sC1W)) :=
  ⟨⟨Nat.zero_le _, (claim_c1_genesis_only_validation envC1W 4 0 [1] [] sC1W (Nat.zero_le _)).1⟩,
    ⟨by decide, (claim_c1_genesis_only_validation envC1W 4 1 [7] [] sC1W (by decide)).2⟩⟩

/-- Concrete environment refuting C2: four segment headers; segment 1 is
not skippable by the header check (its last archived block 2 equals
best + 1 and is partial, but segment 1 is not the last segment), yet its
only complete block is already imported, so the batch comes out empty and
the driver breaks out of the segment loop, returning success with segments
2 and 3 never processed. -/
def envC2 : Env :=
  { headers := [⟨0, false⟩, ⟨2, true⟩, ⟨3, false⟩, ⟨4, false⟩],
    best := fun _ => 1,
    contents := fun i => if i = 1 then some [(1, [1])] else none,
    localBlockBytes := fun n => [n],
    decodeOk := fun _ => true }

/-- C2 counterexample: the run completes successfully having processed only
segment 1 of the four listed segments — segment 2, which lies strictly
below the last listed segment 3, is neither skipped by the already-imported
check nor fetched, refuting the claim that no segment below the last is
left unprocessed while the run still returns success. -/
theorem claim_c2_counterexample :
    envC2.headers.length = 4 ∧
    (runDriver envC2 4).isDone = true ∧
    (runDriver envC2 4).st.events = [(1, SegEvent.fetched)] :=
  ⟨rfl, by decide, by decide⟩

/-- Per-segment-loop form of the amended C2: the processed segment indices
are exactly a prefix of the remaining index list, in order and without
gaps. -/
theorem procSegments_events_take (env : Env) (fuel : Nat) :
    ∀ (idxs : List Nat) (st : St),
      ∃ k, ((procSegments env fuel idxs st).st.events).map Prod.fst =
        st.events.map Prod.fst ++ idxs.take k := by
  intro idxs
  induction idxs with
  | nil =>
    intro st
    exact ⟨0, by simp [procSegments, LoopRes.st]⟩
  | cons i rest ih =>
    intro st
    simp only [procSegments]
    cases hh : env.headers[i]? with
    | none =>
      cases hfs : fetchSegment env fuel i rest.isEmpty st st.readIdx with
      | inl r =>
        have hev := fetchSegment_events env fuel i rest.isEmpty st st.readIdx
        rw [hfs] at hev
        have hev' : r.st.events = st.events ++ [(i, SegEvent.fetched)] := hev
        exact ⟨1, by rw [hev']; simp⟩
      | inr st' =>
        have hev := fetchSegment_events env fuel i rest.isEmpty st st.readIdx
        rw [hfs] at hev
        have hev' : st'.events = st.events ++ [(i, SegEvent.fetched)] := hev
        obtain ⟨k, hk⟩ := ih st'
        refine ⟨k + 1, ?_⟩
        rw [hk, hev']
        simp
    | some h =>
      by_cases h1 : h.lastArchivedBlockNumber ≤ env.best st.readIdx
      · simp only [if_pos h1]
        obtain ⟨k, hk⟩ := ih
          { st with readIdx := st.readIdx + 1, events := st.events ++ [(i, SegEvent.skipped)] }
        refine ⟨k + 1, ?_⟩
        rw [hk]
        simp
      · simp only [if_neg h1]
        by_cases h2 : h.lastArchivedBlockNumber = env.best (st.readIdx + 1) + 1 ∧
            h.lastBlockIncomplete = true ∧ rest = []
        · simp only [if_pos h2]
          obtain ⟨k, hk⟩ := ih
            { st with readIdx := st.readIdx + 2, events := st.events ++ [(i, SegEvent.skipped)] }
          refine ⟨k + 1, ?_⟩
          rw [hk]
          simp
        · simp only [if_neg h2]
          cases hfs : fetchSegment env fuel i rest.isEmpty st (st.readIdx + 2) with
          | inl r =>
            have hev := fetchSegment_events env fuel i rest.isEmpty st (st.readIdx + 2)
            rw [hfs] at hev
            have hev' : r.st.events = st.events ++ [(i, SegEvent.fetched)] := hev
            exact ⟨1, by rw [hev']; simp⟩
          | inr st' =>
            have hev := fetchSegment_events env fuel i rest.isEmpty st (st.readIdx + 2)
            rw [hfs] at hev
            have hev' : st'.events = st.events ++ [(i, SegEvent.fetched)] := hev
            obtain ⟨k, hk⟩ := ih st'
            refine ⟨k + 1, ?_⟩
            rw [hk, hev']
            simp

/-- C2 amended: segment indices are processed strictly in increasing order
starting at index 1, each processed segment being either skipped via the
already-imported check or fetched and reconstructed, and the processed
indices always form a gapless prefix of `1 .. last`; however the run may
stop early — still returning success — when a fetched segment contributes
no new blocks to import (the empty-batch break), leaving all later segments
unprocessed. -/
theorem claim_c2_prefix_in_order (env : Env) (fuel : Nat) :
    ∃ k, ((runDriver env fuel).st.events).map Prod.fst =
      ((List.range env.headers.length).drop 1).take k := by
  unfold runDriver
  by_cases he : env.headers.isEmpty
  · rw [if_pos he]
    exact ⟨0, by simp [initSt, LoopRes.st]⟩
  · rw [if_neg he]
    obtain ⟨k, hk⟩ :=
      procSegments_events_take env fuel ((List.range env.headers.length).drop 1) initSt
    exact ⟨k, by simpa [initSt] using hk⟩

/-- Dropping a middle chunk of a strictly increasing list keeps it strictly
increasing. -/
theorem pairwise_drop_middle {a b c : List Nat} (hp : (a ++ (b ++ c)).Pairwise (· < ·)) :
    (a ++ c).Pairwise (· < ·) :=
  List.Pairwise.sublist (List.Sublist.append_left (List.sublist_append_right b c) a) hp

/-- A strictly increasing list stays strictly increasing on a prefix. -/
theorem pairwise_take_left {a b : List Nat} (hp : (a ++ b).Pairwise (· < ·)) :
    a.Pairwise (· < ·) :=
  List.Pairwise.sublist (List.sublist_append_left a b) hp

/-- Flattened submissions after appending one batch. -/
theorem flatSubs_append_one (subs : List (Origin × List Nat)) (o : Origin) (b : List Nat) :
    flatSubs (subs ++ [(o, b)]) = flatSubs subs ++ b := by
  simp [flatSubs]

/-- Flattened submissions after appending two batches. -/
theorem flatSubs_append_two (subs : List (Origin × List Nat)) (o1 : Origin) (b1 : List Nat)
    (o2 : Origin) (b2 : List Nat) :
    flatSubs (subs ++ [(o1, b1), (o2, b2)]) = flatSubs subs ++ (b1 ++ b2) := by
  simp [flatSubs]

/-- The wait loop only moves block numbers from the pending batch into the
submission trace: the concatenation of flattened submissions and pending
batch is invariant under it, for every outcome. -/
theorem waitLoop_flat (env : Env) (bn : Nat) :
    ∀ (fuel : Nat) (s : BlkSt),
      flatSubs (waitLoop env bn fuel s).st.subs ++ (waitLoop env bn fuel s).st.batch =
        flatSubs s.subs ++ s.batch := by
  intro fuel
  induction fuel with
  | zero => intro s; rfl
  | succ n ih =>
    intro s
    by_cases hcond : QUEUED_BLOCKS_LIMIT ≤ bn - s.bestVar
    · simp only [waitLoop, if_pos hcond]
      by_cases hbe : s.batch.isEmpty
      · simp only [hbe, if_pos]
        exact ih { s with bestVar := env.best s.readIdx, readIdx := s.readIdx + 1 }
      · simp only [hbe, Bool.false_eq_true, if_false]
        have hflush := ih
          { bestVar := env.best s.readIdx, readIdx := s.readIdx + 1, batch := [],
            subs := s.subs ++ [(Origin.initialSync, s.batch)], downloaded := s.downloaded }
        rw [hflush]
        simp [flatSubs]
    · have hstop : waitLoop env bn (n + 1) s = .done s := by
        simp only [waitLoop, if_neg hcond]
      rw [hstop]
      rfl

/-- The block loop submits and queues block numbers only in the order they
appear in the reconstructed contents: if the already flushed numbers, the
pending batch, the remaining contents and any fixed future tail are jointly
strictly increasing, the same holds after the loop, for every outcome. -/
theorem procBlocks_pairwise (env : Env) (fuel : Nat) :
    ∀ (blocks : List (Nat × Bytes)) (s : BlkSt) (rf : List Nat),
      ((flatSubs s.subs ++ s.batch) ++ (blocks.map Prod.fst ++ rf)).Pairwise (· < ·) →
      ((flatSubs (procBlocks env fuel blocks s).st.subs ++
        (procBlocks env fuel blocks s).st.batch) ++ rf).Pairwise (· < ·) := by
  intro blocks
  induction blocks with
  | nil =>
    intro s rf hp
    simpa [procBlocks, LoopRes.st] using hp
  | cons hd rest ih =>
    rcases hd with ⟨bn, bytes⟩
    intro s rf hp
    have hp' : ((flatSubs s.subs ++ s.batch) ++ (rest.map Prod.fst ++ rf)).Pairwise (· < ·) := by
      have h1 : ((flatSubs s.subs ++ s.batch) ++
          ([bn] ++ (rest.map Prod.fst ++ rf))).Pairwise (· < ·) := by
        simpa using hp
      exact pairwise_drop_middle h1
    have hpKeep : ((flatSubs s.subs ++ s.batch) ++ rf).Pairwise (· < ·) := by
      have h1 : ((flatSubs s.subs ++ s.batch) ++
          ((bn :: rest.map Prod.fst) ++ rf)).Pairwise (· < ·) := by
        simpa using hp
      exact pairwise_drop_middle h1
    simp only [procBlocks]
    by_cases hle : bn ≤ s.bestVar
    · simp only [if_pos hle]
      by_cases h0 : bn = 0
      · simp only [if_pos h0]
        by_cases hgen : env.localBlockBytes bn = bytes
        · simp only [if_pos hgen]
          exact ih s rf hp'
        · simp only [if_neg hgen]
          exact hpKeep
      · simp only [if_neg h0]
        exact ih s rf hp'
    · simp only [if_neg hle]
      have hW := waitLoop_flat env bn fuel s
      cases hw : waitLoop env bn fuel s with
      | done s1 =>
        rw [hw] at hW
        simp only [LoopRes.st] at hW
        by_cases hdec : env.decodeOk bytes
        · simp only [if_pos hdec]
          apply ih
          show ((flatSubs s1.subs ++ (s1.batch ++ [bn])) ++
            (rest.map Prod.fst ++ rf)).Pairwise (· < ·)
          have heq : (flatSubs s1.subs ++ (s1.batch ++ [bn])) ++ (rest.map Prod.fst ++ rf) =
              (flatSubs s1.subs ++ s1.batch) ++ ([bn] ++ (rest.map Prod.fst ++ rf)) := by
            simp [List.append_assoc]
          rw [heq, hW]
          simpa using hp
        · simp only [if_neg hdec]
          show ((flatSubs s1.subs ++ s1.batch) ++ rf).Pairwise (· < ·)
          rw [hW]
          exact hpKeep
      | fail e s1 =>
        rw [hw] at hW
        simp only [LoopRes.st] at hW
        show ((flatSubs s1.subs ++ s1.batch) ++ rf).Pairwise (· < ·)
        rw [hW]
        exact hpKeep
      | spin s1 =>
        rw [hw] at hW
        simp only [LoopRes.st] at hW
        show ((flatSubs s1.subs ++ s1.batch) ++ rf).Pairwise (· < ·)
        rw [hW]
        exact hpKeep

/-- Per-segment preservation: fetching a segment whose reconstructed block
numbers continue the already submitted ones in strictly increasing order
keeps every submission trace strictly increasing, both when the loop
terminates there (`inl`) and when it continues (`inr`). -/
theorem fetchSegment_pairwise (env : Env) (fuel i : Nat) (isLast : Bool) (st : St)
    (readIdx : Nat) (rf : List Nat)
    (hp : (flatSubs st.subs ++
      (((env.contents i).getD []).map Prod.fst ++ rf)).Pairwise (· < ·)) :
    (∀ r, fetchSegment env fuel i isLast st readIdx = .inl r →
      (flatSubs r.st.subs).Pairwise (· < ·)) ∧
    (∀ st', fetchSegment env fuel i isLast st readIdx = .inr st' →
      (flatSubs st'.subs ++ rf).Pairwise (· < ·)) := by
  unfold fetchSegment
  cases hc : env.contents i with
  | none =>
    constructor
    · intro r hr
      cases hr
      show (flatSubs st.subs).Pairwise (· < ·)
      exact pairwise_take_left hp
    · intro st' hst'
      cases hst'
  | some blocks =>
    rw [hc] at hp
    simp only [Option.getD_some] at hp
    have hp0 : ((flatSubs st.subs ++ ([] : List Nat)) ++
        (blocks.map Prod.fst ++ rf)).Pairwise (· < ·) := by
      simpa using hp
    have hRes := procBlocks_pairwise env fuel blocks
      { bestVar := env.best readIdx, readIdx := readIdx + 1, batch := [],
        subs := st.subs, downloaded := st.downloaded } rf hp0
    simp only []
    cases hpb : procBlocks env fuel blocks
        { bestVar := env.best readIdx, readIdx := readIdx + 1, batch := [],
          subs := st.subs, downloaded := st.downloaded } with
    | fail e s =>
      rw [hpb] at hRes
      simp only [LoopRes.st] at hRes
      constructor
      · intro r hr
        cases hr
        show (flatSubs s.subs).Pairwise (· < ·)
        have := pairwise_take_left hRes
        exact pairwise_take_left this
      · intro st' hst'
        cases hst'
    | spin s =>
      rw [hpb] at hRes
      simp only [LoopRes.st] at hRes
      constructor
      · intro r hr
        cases hr
        show (flatSubs s.subs).Pairwise (· < ·)
        have := pairwise_take_left hRes
        exact pairwise_take_left this
      · intro st' hst'
        cases hst'
    | done s =>
      rw [hpb] at hRes
      simp only [LoopRes.st] at hRes
      by_cases hbe : s.batch.isEmpty
      · simp only [hbe, if_pos]
        constructor
        · intro r hr
          cases hr
          show (flatSubs s.subs).Pairwise (· < ·)
          have := pairwise_take_left hRes
          exact pairwise_take_left this
        · intro st' hst'
          cases hst'
      · simp only [hbe, Bool.false_eq_true, if_false]
        by_cases hl : isLast = true
        · rw [if_pos hl]
          cases hgl : s.batch.getLast? with
          | none =>
            constructor
            · intro r hr
              cases hr
            · intro st' hst'
              cases hst'
              show (flatSubs s.subs ++ rf).Pairwise (· < ·)
              have h1 : ((flatSubs s.subs) ++ (s.batch ++ rf)).Pairwise (· < ·) := by
                simpa [List.append_assoc] using hRes
              exact pairwise_drop_middle h1
          | some lb =>
            constructor
            · intro r hr
              cases hr
            · intro st' hst'
              cases hst'
              show (flatSubs (s.subs ++ [(Origin.initialSync, s.batch.dropLast),
                (Origin.broadcast, [lb])]) ++ rf).Pairwise (· < ·)
              rw [flatSubs_append_two]
              have hdl : s.batch.dropLast ++ [lb] = s.batch :=
                List.dropLast_append_getLast? lb hgl
              rw [hdl]
              exact hRes
        · rw [if_neg hl]
          constructor
          · intro r hr
            cases hr
          · intro st' hst'
            cases hst'
            show (flatSubs (s.subs ++ [(Origin.initialSync, s.batch)]) ++ rf).Pairwise (· < ·)
            rw [flatSubs_append_one]
            exact hRes

/-- Segment-loop preservation of strictly increasing submissions. -/
theorem procSegments_pairwise (env : Env) (fuel : Nat) :
    ∀ (idxs : List Nat) (st : St),
      (flatSubs st.subs ++ futureOf env idxs).Pairwise (· < ·) →
      (flatSubs (procSegments env fuel idxs st).st.subs).Pairwise (· < ·) := by
  intro idxs
  induction idxs with
  | nil =>
    intro st hp
    simp only [procSegments, LoopRes.st]
    have : futureOf env ([] : List Nat) = [] := by simp [futureOf]
    rw [this, List.append_nil] at hp
    exact hp
  | cons i rest ih =>
    intro st hp
    have hfut : futureOf env (i :: rest) =
        ((env.contents i).getD []).map Prod.fst ++ futureOf env rest := by
      simp [futureOf]
    rw [hfut] at hp
    have hskip : (flatSubs st.subs ++ futureOf env rest).Pairwise (· < ·) := by
      have h1 : (flatSubs st.subs ++ (((env.contents i).getD []).map Prod.fst ++
          futureOf env rest)).Pairwise (· < ·) := hp
      exact pairwise_drop_middle h1
    simp only [procSegments]
    cases hh : env.headers[i]? with
    | none =>
      have hfp := fetchSegment_pairwise env fuel i rest.isEmpty st st.readIdx
        (futureOf env rest) hp
      cases hfs : fetchSegment env fuel i rest.isEmpty st st.readIdx with
      | inl r => exact hfp.1 r hfs
      | inr st' => exact ih st' (hfp.2 st' hfs)
    | some h =>
      by_cases h1 : h.lastArchivedBlockNumber ≤ env.best st.readIdx
      · simp only [if_pos h1]
        exact ih _ hskip
      · simp only [if_neg h1]
        by_cases h2 : h.lastArchivedBlockNumber = env.best (st.readIdx + 1) + 1 ∧
            h.lastBlockIncomplete = true ∧ rest = []
        · simp only [if_pos h2]
          exact ih _ hskip
        · simp only [if_neg h2]
          have hfp := fetchSegment_pairwise env fuel i rest.isEmpty st (st.readIdx + 2)
            (futureOf env rest) hp
          cases hfs : fetchSegment env fuel i rest.isEmpty st (st.readIdx + 2) with
          | inl r => exact hfp.1 r hfs
          | inr st' => exact ih st' (hfp.2 st' hfs)

/-- C7: assuming the reconstructed contents of the iterated segments list
block numbers in strictly increasing order across the whole run, and the
best-block oracle is monotonically non-decreasing, every block number
submitted to the import queue is strictly greater than every block number
submitted before it, whatever the run's outcome. -/
theorem claim_c7_monotone_submissions (env : Env) (fuel : Nat)
    (hbest : ∀ k, env.best k ≤ env.best (k + 1))
    (hglob : (globalBlocks env).Pairwise (· < ·)) :
    (flatSubs (runDriver env fuel).st.subs).Pairwise (· < ·) := by
  unfold runDriver
  by_cases he : env.headers.isEmpty
  · rw [if_pos he]
    simp [initSt, LoopRes.st, flatSubs]
  · rw [if_neg he]
    apply procSegments_pairwise env fuel ((List.range env.headers.length).drop 1) initSt
    simpa [initSt, flatSubs, globalBlocks] using hglob

/-- Concrete environment for the C7 witness: one fetched segment containing
blocks 1 and 2, submitted as an initial-sync batch plus a final broadcast
block. -/
def envC7 : Env :=
  { headers := [⟨0, false⟩, ⟨2, false⟩],
    best := fun _ => 0,
    contents := fun i => if i = 1 then some [(1, [1]), (2, [2])] else none,
    localBlockBytes := fun n => [n],
    decodeOk := fun _ => true }

/-- Witness for C7: with a frozen best-block oracle and strictly increasing
segment contents, the submitted block numbers come out strictly
increasing. -/
theorem claim_c7_witness :
    (∀ k, envC7.best k ≤ envC7.best (k + 1)) ∧
    (globalBlocks envC7).Pairwise (· < ·) ∧
    (flatSubs (runDriver envC7 4).st.subs).Pairwise (· < ·) :=
  ⟨fun _ => Nat.le_refl 0, by decide,
    claim_c7_monotone_submissions envC7 4 (fun _ => Nat.le_refl 0) (by decide)⟩

end Subspace
